import Mathlib

/-!
# Verification of the DEX snapshot normalization + idempotent-append pipeline

Shallow embedding of `src/collect_dex_data.py` (the starter variant, which the
spec designates as the core): the field extractor `_get_nested`, the record
normalizer `normalize_records`, the dedup-key logic and the table store
(`read_existing_keys`, `write_rows`) together with the orchestrator
`do_snapshot`.

Python values (numbers, strings, `None`, nested dicts) are modelled by the
inductive `PyVal`; Python dicts by association lists whose keys are unique at
runtime (`alookup` returns the first binding, which agrees with dict lookup).
The partition CSV file is modelled at the record level as
`Option (List (List String))` (`none` = file absent; each record is the list
of its cell strings, so csv quoting round-trips transparently); a second,
character-level model (`splitOnChar`, `csv_records_of_text`) covers the
trailing-newline behaviour of the reader. The filesystem state seen by the
store is `FSState`: whether the output directory exists, plus the partition
file of the current day.
-/

/-- A Python value as it occurs in the API responses and rows: `None`,
a string, an integer (standing in for the numeric scalars), or a
string-keyed dict. -/
inductive PyVal where
  | vnull : PyVal
  | vstr (s : String) : PyVal
  | vint (n : Int) : PyVal
  | vobj (fields : List (String × PyVal)) : PyVal
deriving Repr

mutual

/-- Boolean equality on `PyVal` (structural, like Python `==` restricted to
the value forms we model: `None`, `str`, `int`, `dict` — distinct forms are
never equal, which matches Python for these types). -/
def PyVal.beq : PyVal → PyVal → Bool
  | .vnull, .vnull => true
  | .vstr a, .vstr b => a == b
  | .vint a, .vint b => a == b
  | .vobj a, .vobj b => PyVal.beqFields a b
  | _, _ => false

/-- Pointwise boolean equality of dict field lists. -/
def PyVal.beqFields : List (String × PyVal) → List (String × PyVal) → Bool
  | [], [] => true
  | (k, v) :: r, (k₂, v₂) :: r₂ => k == k₂ && PyVal.beq v v₂ && PyVal.beqFields r r₂
  | _, _ => false

end

mutual

/-- `PyVal.beq` decides propositional equality (proof term used to build
the `DecidableEq` instance, which the deduplication code needs). -/
def PyVal.beq_iff : ∀ a b : PyVal, PyVal.beq a b = true ↔ a = b
  | .vnull, .vnull => by simp [PyVal.beq]
  | .vnull, .vstr _ => by simp [PyVal.beq]
  | .vnull, .vint _ => by simp [PyVal.beq]
  | .vnull, .vobj _ => by simp [PyVal.beq]
  | .vstr _, .vnull => by simp [PyVal.beq]
  | .vstr a, .vstr b => by simp [PyVal.beq]
  | .vstr _, .vint _ => by simp [PyVal.beq]
  | .vstr _, .vobj _ => by simp [PyVal.beq]
  | .vint _, .vnull => by simp [PyVal.beq]
  | .vint _, .vstr _ => by simp [PyVal.beq]
  | .vint a, .vint b => by simp [PyVal.beq]
  | .vint _, .vobj _ => by simp [PyVal.beq]
  | .vobj _, .vnull => by simp [PyVal.beq]
  | .vobj _, .vstr _ => by simp [PyVal.beq]
  | .vobj _, .vint _ => by simp [PyVal.beq]
  | .vobj a, .vobj b => by
      simp only [PyVal.beq, PyVal.vobj.injEq]
      exact PyVal.beqFields_iff a b

/-- Companion of `PyVal.beq_iff` for dict field lists. -/
def PyVal.beqFields_iff :
    ∀ a b : List (String × PyVal), PyVal.beqFields a b = true ↔ a = b
  | [], [] => by simp [PyVal.beqFields]
  | [], _ :: _ => by simp [PyVal.beqFields]
  | _ :: _, [] => by simp [PyVal.beqFields]
  | (k, v) :: r, (k₂, v₂) :: r₂ => by
      simp only [PyVal.beqFields, Bool.and_eq_true, beq_iff_eq, List.cons.injEq,
        Prod.mk.injEq]
      rw [PyVal.beq_iff v v₂, PyVal.beqFields_iff r r₂]

end

instance : DecidableEq PyVal := fun a b =>
  decidable_of_iff (PyVal.beq a b = true) (PyVal.beq_iff a b)

/-- A Python dict of one raw API pair record (or one normalized row):
an association list; real dicts have distinct keys, so first-binding
lookup coincides with dict lookup. -/
abbrev PyDict := List (String × PyVal)

/-- First-binding association lookup, the model of `d[k]` / `k in d`. -/
def alookup (k : String) : PyDict → Option PyVal
  | [] => none
  | (k₁, v) :: rest => if k = k₁ then some v else alookup k rest

/-- Python `d.get(k)` with the default `None`: absent key degrades to `vnull`
exactly as `.get` returns `None`. -/
def pyGet (d : PyDict) (k : String) : PyVal :=
  (alookup k d).getD .vnull

/-- Split a character list on a separator character; this models Python
`str.split(sep)` for a one-character separator (and the line structure the
`csv` module sees): the empty input yields `[[]]`, adjacent separators yield
empty pieces, exactly as in Python. -/
def splitOnChar (sep : Char) : List Char → List (List Char)
  | [] => [[]]
  | c :: cs =>
      let r := splitOnChar sep cs
      if c = sep then [] :: r else (c :: r.headI) :: r.tail

/-- Python `s.split(sep)` for a one-character separator, producing strings. -/
def pySplit (sep : Char) (s : String) : List String :=
  (splitOnChar sep s.data).map String.mk

/-- The walk of `_get_nested` over the already-split path: per segment,
return the default as soon as the current value is not a dict or the
segment key is absent, otherwise step into the value. -/
def get_nested_parts (default : PyVal) : PyVal → List String → PyVal
  | cur, [] => cur
  | .vobj fields, part :: rest =>
      match alookup part fields with
      | some v => get_nested_parts default v rest
      | none => default
  | _, _ :: _ => default

/-- `_get_nested(d, path, default)` from `collect_dex_data.py`: split the
dot-separated path and walk it; both call sites pass the default `None`. -/
def get_nested (d : PyVal) (path : String) (default : PyVal := .vnull) : PyVal :=
  get_nested_parts default d (pySplit '.' path)

/-- The fixed 30-name csv schema of `write_rows` (`fieldnames`, same order). -/
def fieldnames : List String :=
  ["snapshot_ts", "pairAddress", "chainId", "dexId", "url",
   "baseToken_symbol", "baseToken_address", "quoteToken_symbol", "quoteToken_address",
   "priceNative", "priceUsd",
   "priceChange_h1", "priceChange_h6", "priceChange_h24",
   "txns_m5_buys", "txns_m5_sells", "txns_h1_buys", "txns_h1_sells",
   "txns_h6_buys", "txns_h6_sells", "txns_h24_buys", "txns_h24_sells",
   "volume_m5", "volume_h1", "volume_h6", "volume_h24",
   "liquidity_base", "liquidity_quote", "liquidity_usd",
   "pairCreatedAt"]

/-- The dict `rec` that one iteration of `normalize_records` builds for the
raw record `p`: top-level scalars by `p.get`, nested paths by `_get_nested`,
the caller-supplied snapshot timestamp first. -/
def normalize_record (p : PyDict) (snapshot_ts : String) : PyDict :=
  [("snapshot_ts", .vstr snapshot_ts),
   ("pairAddress", pyGet p "pairAddress"),
   ("chainId", pyGet p "chainId"),
   ("dexId", pyGet p "dexId"),
   ("url", pyGet p "url"),
   ("baseToken_symbol", get_nested (.vobj p) "baseToken.symbol"),
   ("baseToken_address", get_nested (.vobj p) "baseToken.address"),
   ("quoteToken_symbol", get_nested (.vobj p) "quoteToken.symbol"),
   ("quoteToken_address", get_nested (.vobj p) "quoteToken.address"),
   ("priceNative", pyGet p "priceNative"),
   ("priceUsd", pyGet p "priceUsd"),
   ("priceChange_h1", get_nested (.vobj p) "priceChange.h1"),
   ("priceChange_h6", get_nested (.vobj p) "priceChange.h6"),
   ("priceChange_h24", get_nested (.vobj p) "priceChange.h24"),
   ("txns_m5_buys", get_nested (.vobj p) "txns.m5.buys"),
   ("txns_m5_sells", get_nested (.vobj p) "txns.m5.sells"),
   ("txns_h1_buys", get_nested (.vobj p) "txns.h1.buys"),
   ("txns_h1_sells", get_nested (.vobj p) "txns.h1.sells"),
   ("txns_h6_buys", get_nested (.vobj p) "txns.h6.buys"),
   ("txns_h6_sells", get_nested (.vobj p) "txns.h6.sells"),
   ("txns_h24_buys", get_nested (.vobj p) "txns.h24.buys"),
   ("txns_h24_sells", get_nested (.vobj p) "txns.h24.sells"),
   ("volume_m5", get_nested (.vobj p) "volume.m5"),
   ("volume_h1", get_nested (.vobj p) "volume.h1"),
   ("volume_h6", get_nested (.vobj p) "volume.h6"),
   ("volume_h24", get_nested (.vobj p) "volume.h24"),
   ("liquidity_base", get_nested (.vobj p) "liquidity.base"),
   ("liquidity_quote", get_nested (.vobj p) "liquidity.quote"),
   ("liquidity_usd", get_nested (.vobj p) "liquidity.usd"),
   ("pairCreatedAt", pyGet p "pairCreatedAt")]

/-- `normalize_records(pairs, snapshot_ts)`: the loop appending one
normalized row per raw record, in input order. -/
def normalize_records : List PyDict → String → List PyDict
  | [], _ => []
  | p :: ps, ts => normalize_record p ts :: normalize_records ps ts

/-- The dedup key of `write_rows`:
`(r.get("pairAddress"), r.get("snapshot_ts"))`. -/
def rowKey (r : PyDict) : PyVal × PyVal :=
  (pyGet r "pairAddress", pyGet r "snapshot_ts")

mutual

/-- Python `repr`, which `str()` of a dict applies to its keys and values
(string escaping is not modelled: no claim touches the rendering of nested
dicts, only that it is some fixed string). -/
def pyRepr : PyVal → String
  | .vnull => "None"
  | .vstr s => "\x27" ++ s ++ "\x27"
  | .vint n => toString n
  | .vobj fields => "\x7b" ++ String.intercalate ", " (pyReprFields fields) ++ "\x7d"

/-- The rendered `key: value` pieces of a dict, in order. -/
def pyReprFields : List (String × PyVal) → List String
  | [] => []
  | (k, v) :: rest => ("\x27" ++ k ++ "\x27: " ++ pyRepr v) :: pyReprFields rest

end

/-- How the `csv` writer renders one cell value: `None` becomes the empty
string, strings pass through unchanged, anything else is `str()`-converted. -/
def csvField : PyVal → String
  | .vnull => ""
  | .vstr s => s
  | .vint n => toString n
  | .vobj fields => pyRepr (.vobj fields)

/-- The record `csv.DictWriter.writerow` emits for one row: the row's value
at each schema field, in the fixed order (a missing key falls to the empty
`restval`, which coincides with the rendering of `None`). -/
def serializeRow (r : PyDict) : List String :=
  fieldnames.map (fun f => csvField (pyGet r f))

/-- Position of a name in the header, for the dict `csv.DictReader` builds
by zipping the header with a record. -/
def idxOfStr (k : String) : List String → Option Nat
  | [] => none
  | s :: rest => if s = k then some 0 else (idxOfStr k rest).map (· + 1)

/-- `row.get(k)` on the dict `csv.DictReader` yields for one record: the
cell at the header position of `k`, read back as a string; an absent header
name, or a record too short for that position (`restval = None`), gives
`None`. Headers written by this system have pairwise distinct names, for
which first-position lookup agrees with the zip-into-dict construction. -/
def dictRowGet (header rec : List String) (k : String) : PyVal :=
  match idxOfStr k header with
  | none => .vnull
  | some i =>
      match rec.get? i with
      | some cell => .vstr cell
      | none => .vnull

/-- One partition file at the record level: the list of csv records, each
the list of its cell strings. -/
abbrev CsvFile := List (List String)

/-- `read_existing_keys(csv_path)`: the empty set when the file is absent;
otherwise `csv.DictReader` takes the first record as the header, skips blank
records, and the key of every remaining record is the pair of its
`pairAddress` and `snapshot_ts` cells. The Python set of keys is modelled as
the list of keys in reading order; only membership is ever consulted. -/
def read_existing_keys : Option CsvFile → List (PyVal × PyVal)
  | none => []
  | some [] => []
  | some (header :: records) =>
      (records.filter (fun rec => !rec.isEmpty)).map
        (fun rec => (dictRowGet header rec "pairAddress", dictRowGet header rec "snapshot_ts"))

/-- The filesystem state the table store sees: whether the output directory
exists, and the partition file of the day (`none` = absent). -/
structure FSState where
  dirExists : Bool
  file : Option CsvFile
deriving DecidableEq, Repr

/-- `ensure_dir(outdir)`: create the output directory if needed. -/
def ensure_dir (fs : FSState) : FSState := { fs with dirExists := true }

/-- The dedup loop of `write_rows`: keep a row when its key is not in
`existing`, immediately adding the kept key so that later rows of the same
batch carrying the same key are dropped. -/
def dedupNew (existing : List (PyVal × PyVal)) : List PyDict → List PyDict
  | [] => []
  | r :: rs =>
      if rowKey r ∈ existing then dedupNew existing rs
      else r :: dedupNew (rowKey r :: existing) rs

/-- `write_rows(csv_path, rows)`: return 0 untouched on an empty batch; read
the existing keys; drop the candidates whose key is on disk or was seen
earlier in the batch; return 0 untouched when nothing survives; otherwise
open the file for append — which raises (here `.error ()`) when the parent
directory is missing — writing the header first iff the file did not yet
exist, then the surviving rows, and return their number. -/
def write_rows (fs : FSState) (rows : List PyDict) : Except Unit (FSState × Nat) :=
  if rows.isEmpty then .ok (fs, 0)
  else
    let existing := read_existing_keys fs.file
    let deduped := dedupNew existing rows
    if deduped.isEmpty then .ok (fs, 0)
    else if fs.dirExists then
      let newRecs := deduped.map serializeRow
      let contents :=
        match fs.file with
        | none => fieldnames :: newRecs
        | some recs => recs ++ newRecs
      .ok ({ fs with file := some contents }, deduped.length)
    else .error ()

/-- The fetch failure taxonomy of the three `except` clauses of
`do_snapshot`: HTTP status error, transport error, anything else. -/
inductive FetchErr where
  | httpError (status : Int)
  | requestError
  | unexpected
deriving DecidableEq, Repr

/-- `do_snapshot`, with the fetch outcome passed as a capability: a failed
fetch is caught at the boundary and yields 0 without touching the
filesystem; a successful fetch normalizes, ensures the output directory,
appends, and returns the count the append step reports. A failure in the
append itself is not caught (`.error` propagates). The terminal status line
and the before/after line counts change no state and are not modelled. -/
def do_snapshot (fetched : Except FetchErr (List PyDict)) (fs : FSState)
    (snapshot_ts : String) : Except Unit (FSState × Nat) :=
  match fetched with
  | .error _ => .ok (fs, 0)
  | .ok pairs =>
      let rows := normalize_records pairs snapshot_ts
      let fs₁ := ensure_dir fs
      write_rows fs₁ rows

/-- The records the `csv` reader obtains from raw partition text: one record
per line (text split on the newline character), a blank line giving the
empty record that `DictReader` skips. Cell quoting is not modelled: the
cells this pipeline writes are compared only as whole strings. -/
def csv_records_of_text (text : List Char) : CsvFile :=
  (splitOnChar '\n' text).map
    (fun l => if l.isEmpty then [] else (splitOnChar ',' l).map String.mk)

/-- `read_existing_keys` reading the partition from raw text. -/
def read_existing_keys_text (file : Option (List Char)) : List (PyVal × PyVal) :=
  read_existing_keys (file.map csv_records_of_text)

/-- A finite sequence of `write_rows` calls against the same partition,
threading the filesystem state; a raised append error stops the run. -/
def run_appends : FSState → List (List PyDict) → Except Unit FSState
  | fs, [] => .ok fs
  | fs, rows :: rest =>
      match write_rows fs rows with
      | .ok (fs₁, _) => run_appends fs₁ rest
      | .error e => .error e

/-- The file content after appending `newRecs`, with the header written
first iff the file did not previously exist. -/
def appendContent (file : Option CsvFile) (newRecs : CsvFile) : CsvFile :=
  match file with
  | none => fieldnames :: newRecs
  | some recs => recs ++ newRecs

/-- Stated from the spec's words, for comparison with the dedup loop: going
through the candidates in order, a candidate survives iff its dedup key is
neither already present on disk nor carried by any earlier candidate of the
same batch (so of several candidates with one key, the first survives), and
survivors keep their relative order. -/
def spec_filtered (disk : List (PyVal × PyVal)) :
    List PyDict → List PyDict → List PyDict
  | _, [] => []
  | earlier, r :: rs =>
      (if rowKey r ∉ disk ∧ ∀ e ∈ earlier, rowKey e ≠ rowKey r then [r] else []) ++
        spec_filtered disk (earlier ++ [r]) rs

/-- Stated from the spec's words, for comparison with `_get_nested`: a
successful segment-by-segment walk of a split path through nested dicts,
ending at the final value. -/
inductive WalksTo : PyVal → List String → PyVal → Prop where
  | nil (d : PyVal) : WalksTo d [] d
  | step {fields : List (String × PyVal)} {k : String} {v w : PyVal}
      {rest : List String} (hlook : alookup k fields = some v)
      (hrest : WalksTo v rest w) : WalksTo (.vobj fields) (k :: rest) w

/-- Each non-timestamp field of a normalized row with the source path it is
extracted from: a single segment for the top-level `p.get` scalars (on
which `_get_nested` and `p.get` agree), the dotted path for the nested
extractions. -/
def fieldSources : List (String × String) :=
  [("pairAddress", "pairAddress"), ("chainId", "chainId"), ("dexId", "dexId"),
   ("url", "url"),
   ("baseToken_symbol", "baseToken.symbol"), ("baseToken_address", "baseToken.address"),
   ("quoteToken_symbol", "quoteToken.symbol"), ("quoteToken_address", "quoteToken.address"),
   ("priceNative", "priceNative"), ("priceUsd", "priceUsd"),
   ("priceChange_h1", "priceChange.h1"), ("priceChange_h6", "priceChange.h6"),
   ("priceChange_h24", "priceChange.h24"),
   ("txns_m5_buys", "txns.m5.buys"), ("txns_m5_sells", "txns.m5.sells"),
   ("txns_h1_buys", "txns.h1.buys"), ("txns_h1_sells", "txns.h1.sells"),
   ("txns_h6_buys", "txns.h6.buys"), ("txns_h6_sells", "txns.h6.sells"),
   ("txns_h24_buys", "txns.h24.buys"), ("txns_h24_sells", "txns.h24.sells"),
   ("volume_m5", "volume.m5"), ("volume_h1", "volume.h1"),
   ("volume_h6", "volume.h6"), ("volume_h24", "volume.h24"),
   ("liquidity_base", "liquidity.base"), ("liquidity_quote", "liquidity.quote"),
   ("liquidity_usd", "liquidity.usd"), ("pairCreatedAt", "pairCreatedAt")]

/-- The shape `write_rows` maintains for the partition file: absent, or the
header followed by serialized data rows whose snapshot timestamps are
strings other than the literal header word (true of every timestamp the
orchestrator produces, which is an ISO-8601 string). -/
def wf_partition (file : Option CsvFile) : Prop :=
  file = none ∨
    ∃ rs : List PyDict, file = some (fieldnames :: rs.map serializeRow) ∧
      ∀ r ∈ rs, ∃ s, pyGet r "snapshot_ts" = .vstr s ∧ s ≠ "snapshot_ts"

/-- A normalized row whose raw record carries only the pair address — the
batch element of the cross-batch dedup scenario. -/
def rowK (a ts : String) : PyDict := normalize_record [("pairAddress", .vstr a)] ts

/-- The concrete raw record of the spec's §8 scenario. -/
def sampleRecord : PyDict :=
  [("pairAddress", .vstr "P1"), ("chainId", .vstr "solana"),
   ("dexId", .vstr "raydium"),
   ("baseToken", .vobj [("symbol", .vstr "FOO")]),
   ("quoteToken", .vobj [("symbol", .vstr "USDC")]),
   ("priceUsd", .vstr "1.23"),
   ("liquidity", .vobj [("usd", .vint 5000)]),
   ("txns", .vobj [("h1", .vobj [("buys", .vint 10), ("sells", .vint 4)])])]

section StoreLemmas

theorem write_rows_empty_batch (fs : FSState) : write_rows fs [] = .ok (fs, 0) := by
  simp [write_rows]

theorem write_rows_none_new (fs : FSState) (rows : List PyDict)
    (h : dedupNew (read_existing_keys fs.file) rows = []) :
    write_rows fs rows = .ok (fs, 0) := by
  cases rows with
  | nil => exact write_rows_empty_batch fs
  | cons r rs =>
      simp only [write_rows, List.isEmpty_cons, Bool.false_eq_true, if_false, h,
        List.isEmpty_nil, if_true]

theorem write_rows_appends (fs : FSState) (rows : List PyDict)
    (hd : fs.dirExists = true)
    (hne : dedupNew (read_existing_keys fs.file) rows ≠ []) :
    write_rows fs rows =
      .ok (⟨true, some (appendContent fs.file
              ((dedupNew (read_existing_keys fs.file) rows).map serializeRow))⟩,
           (dedupNew (read_existing_keys fs.file) rows).length) := by
  obtain ⟨d, f⟩ := fs
  simp only at hd
  cases hd
  have hrows : rows ≠ [] := by
    intro h
    exact hne (by simp [h, dedupNew])
  simp only [write_rows, List.isEmpty_eq_true, hrows, if_false,
    List.isEmpty_eq_true, hne, if_true, appendContent]

theorem write_rows_dir_missing (fs : FSState) (rows : List PyDict)
    (hd : fs.dirExists = false)
    (hne : dedupNew (read_existing_keys fs.file) rows ≠ []) :
    write_rows fs rows = .error () := by
  obtain ⟨d, f⟩ := fs
  simp only at hd
  cases hd
  have hrows : rows ≠ [] := by
    intro h
    exact hne (by simp [h, dedupNew])
  simp only [write_rows, List.isEmpty_eq_true, hrows, if_false, hne, if_true,
    Bool.false_eq_true]

theorem write_rows_ok_of_dir (fs : FSState) (rows : List PyDict)
    (hd : fs.dirExists = true) :
    ∃ fs₂ n, write_rows fs rows = .ok (fs₂, n) ∧ fs₂.dirExists = true := by
  by_cases h : dedupNew (read_existing_keys fs.file) rows = []
  · exact ⟨fs, 0, write_rows_none_new fs rows h, hd⟩
  · exact ⟨_, _, write_rows_appends fs rows hd h, rfl⟩

end StoreLemmas

section DedupLemmas

theorem dedupNew_sublist (existing : List (PyVal × PyVal)) :
    ∀ rows : List PyDict, List.Sublist (dedupNew existing rows) rows := by
  intro rows
  induction rows generalizing existing with
  | nil => simp [dedupNew]
  | cons r rs ih =>
      simp only [dedupNew]
      split
      · exact List.Sublist.cons r (ih existing)
      · exact List.Sublist.cons₂ r (ih _)

theorem rowKey_mem_of_mem (rows : List PyDict) :
    ∀ (existing : List (PyVal × PyVal)) (r : PyDict), r ∈ rows →
      rowKey r ∈ existing ∨ rowKey r ∈ (dedupNew existing rows).map rowKey := by
  induction rows with
  | nil => intro _ _ h; cases h
  | cons a rs ih =>
      intro existing r hr
      simp only [dedupNew]
      rcases List.mem_cons.mp hr with h | h
      · subst h
        by_cases hk : rowKey r ∈ existing
        · exact Or.inl hk
        · right
          simp [hk]
      · by_cases hk : rowKey a ∈ existing
        · simpa [hk] using ih existing r h
        · rcases ih (rowKey a :: existing) r h with hmem | hmem
          · rcases List.mem_cons.mp hmem with heq | hmem₂
            · right
              simp [hk, heq]
            · exact Or.inl hmem₂
          · right
            simp only [hk, if_false, List.map_cons, List.mem_cons]
            exact Or.inr hmem

theorem dedupNew_keys_nodup_disjoint (rows : List PyDict) :
    ∀ existing : List (PyVal × PyVal),
      ((dedupNew existing rows).map rowKey).Nodup ∧
      ∀ k ∈ (dedupNew existing rows).map rowKey, k ∉ existing := by
  induction rows with
  | nil => intro existing; simp [dedupNew]
  | cons r rs ih =>
      intro existing
      simp only [dedupNew]
      by_cases hk : rowKey r ∈ existing
      · simpa [hk] using ih existing
      · obtain ⟨hnodup, hdisj⟩ := ih (rowKey r :: existing)
        simp only [hk, if_false, List.map_cons]
        constructor
        · refine List.nodup_cons.mpr ⟨?_, hnodup⟩
          intro hmem
          exact hdisj _ hmem (List.mem_cons_self _ _)
        · intro k hmem
          rcases List.mem_cons.mp hmem with heq | hmem₂
          · exact heq ▸ hk
          · intro hex
            exact hdisj k hmem₂ (List.mem_cons_of_mem _ hex)

theorem dedupNew_eq_nil_of_all_mem (rows : List PyDict)
    (existing : List (PyVal × PyVal))
    (h : ∀ r ∈ rows, rowKey r ∈ existing) : dedupNew existing rows = [] := by
  induction rows with
  | nil => rfl
  | cons r rs ih =>
      have hr : rowKey r ∈ existing := h r (List.mem_cons_self _ _)
      simp only [dedupNew, hr, if_true]
      exact ih fun x hx => h x (List.mem_cons_of_mem _ hx)

theorem dedupNew_nil_iff (rows : List PyDict) :
    dedupNew [] rows = [] ↔ rows = [] := by
  cases rows with
  | nil => simp [dedupNew]
  | cons r rs => simp [dedupNew]

/-- The dedup loop computes the spec's filter: `existing` holds exactly the
on-disk keys together with the keys of the already-scanned candidates. -/
theorem dedupNew_eq_spec_filtered (rows : List PyDict) :
    ∀ (existing disk : List (PyVal × PyVal)) (earlier : List PyDict),
      (∀ k, k ∈ existing ↔ (k ∈ disk ∨ k ∈ earlier.map rowKey)) →
      dedupNew existing rows = spec_filtered disk earlier rows := by
  induction rows with
  | nil => intro _ _ _ _; rfl
  | cons r rs ih =>
      intro existing disk earlier hinv
      by_cases hkeep : rowKey r ∉ disk ∧ ∀ e ∈ earlier, rowKey e ≠ rowKey r
      · have hk : rowKey r ∉ existing := by
          rw [hinv]
          rintro (hd | he)
          · exact hkeep.1 hd
          · obtain ⟨e, hmem, heq⟩ := List.mem_map.mp he
            exact hkeep.2 e hmem heq
        rw [show dedupNew existing (r :: rs) =
              r :: dedupNew (rowKey r :: existing) rs from by simp [dedupNew, hk]]
        rw [spec_filtered, if_pos hkeep, List.singleton_append]
        congr 1
        refine ih (rowKey r :: existing) disk (earlier ++ [r]) ?_
        intro k
        rw [List.mem_cons, hinv k]
        simp only [List.map_append, List.mem_append, List.map_cons,
          List.map_nil, List.mem_singleton]
        constructor
        · rintro (heq | hd | he)
          · exact Or.inr (Or.inr heq)
          · exact Or.inl hd
          · exact Or.inr (Or.inl he)
        · rintro (hd | he | hkr)
          · exact Or.inr (Or.inl hd)
          · exact Or.inr (Or.inr he)
          · exact Or.inl hkr
      · have hk : rowKey r ∈ existing := by
          rw [hinv]
          rcases not_and_or.mp hkeep with hc | hc
          · exact Or.inl (not_not.mp hc)
          · push_neg at hc
            obtain ⟨e, hmem, heq⟩ := hc
            exact Or.inr (List.mem_map.mpr ⟨e, hmem, heq⟩)
        rw [show dedupNew existing (r :: rs) =
              dedupNew existing rs from by simp [dedupNew, hk]]
        rw [spec_filtered, if_neg hkeep, List.nil_append]
        refine ih existing disk (earlier ++ [r]) ?_
        intro k
        rw [hinv k]
        simp only [List.map_append, List.mem_append, List.map_cons,
          List.map_nil, List.mem_singleton]
        constructor
        · rintro (hd | he)
          · exact Or.inl hd
          · exact Or.inr (Or.inl he)
        · rintro (hd | he | hkr)
          · exact Or.inl hd
          · exact Or.inr he
          · -- a later candidate carrying the key of the dropped row `r`:
            -- that key is already accounted for by `existing`
            rw [hkr]
            exact (hinv (rowKey r)).mp hk

theorem spec_filtered_sublist (disk : List (PyVal × PyVal)) :
    ∀ (rows earlier : List PyDict),
      List.Sublist (spec_filtered disk earlier rows) rows := by
  intro rows
  induction rows with
  | nil => intro _; simp [spec_filtered]
  | cons r rs ih =>
      intro earlier
      simp only [spec_filtered]
      split
      · simpa using List.Sublist.cons₂ r (ih (earlier ++ [r]))
      · simpa using List.Sublist.cons r (ih (earlier ++ [r]))

end DedupLemmas

section RoundTripLemmas

theorem serializeRow_ne_nil (r : PyDict) : serializeRow r ≠ [] := by
  intro h
  exact absurd (congrArg List.length h) (by simp [serializeRow, fieldnames])

theorem dictRowGet_serialized_pairAddress (r : PyDict) :
    dictRowGet fieldnames (serializeRow r) "pairAddress" =
      .vstr (csvField (pyGet r "pairAddress")) := rfl

theorem dictRowGet_serialized_snapshot_ts (r : PyDict) :
    dictRowGet fieldnames (serializeRow r) "snapshot_ts" =
      .vstr (csvField (pyGet r "snapshot_ts")) := rfl

/-- Reading back a partition that holds the written header and a list of
serialized rows recovers, for each row in order, the pair of its
`pairAddress` and `snapshot_ts` cells — the written values rendered as the
strings the csv layer stores. -/
theorem read_keys_of_written (rs : List PyDict) :
    read_existing_keys (some (fieldnames :: rs.map serializeRow)) =
      rs.map (fun r => ((.vstr (csvField (pyGet r "pairAddress")) : PyVal),
                        (.vstr (csvField (pyGet r "snapshot_ts")) : PyVal))) := by
  have hfilter : (rs.map serializeRow).filter (fun rec => !rec.isEmpty) =
      rs.map serializeRow := by
    refine List.filter_eq_self.mpr ?_
    intro rec hrec
    obtain ⟨r, _, hr⟩ := List.mem_map.mp hrec
    cases hr
    simpa using serializeRow_ne_nil r
  simp only [read_existing_keys, hfilter, List.map_map]
  refine List.map_congr_left ?_
  intro r _
  simp only [Function.comp_apply, dictRowGet_serialized_pairAddress,
    dictRowGet_serialized_snapshot_ts]

/-- The key the dedup loop computes for a normalized row: the normalized
`pairAddress` together with the snapshot timestamp. -/
theorem rowKey_normalize_record (p : PyDict) (ts : String) :
    rowKey (normalize_record p ts) = (pyGet p "pairAddress", .vstr ts) := rfl

theorem pyGet_normalize_record_snapshot_ts (p : PyDict) (ts : String) :
    pyGet (normalize_record p ts) "snapshot_ts" = .vstr ts := rfl

theorem pyGet_normalize_record_pairAddress (p : PyDict) (ts : String) :
    pyGet (normalize_record p ts) "pairAddress" = pyGet p "pairAddress" := rfl

theorem normalize_records_eq_map (pairs : List PyDict) (ts : String) :
    normalize_records pairs ts = pairs.map (fun p => normalize_record p ts) := by
  induction pairs with
  | nil => rfl
  | cons p ps ih => simp [normalize_records, ih]

end RoundTripLemmas

section TextLayerLemmas

theorem splitOnChar_ne_nil (sep : Char) (cs : List Char) : splitOnChar sep cs ≠ [] := by
  cases cs with
  | nil => simp [splitOnChar]
  | cons c cs =>
      simp only [splitOnChar]
      split <;> simp

theorem splitOnChar_append_sep (sep : Char) (t : List Char) :
    splitOnChar sep (t ++ [sep]) = splitOnChar sep t ++ [[]] := by
  induction t with
  | nil => simp [splitOnChar]
  | cons c cs ih =>
      by_cases hc : c = sep
      · subst hc
        simp [splitOnChar, ih]
      · obtain ⟨a, as, hsplit⟩ :=
          List.exists_cons_of_ne_nil (splitOnChar_ne_nil sep cs)
        simp [splitOnChar, hc, ih, hsplit]

theorem csv_records_of_text_append_newline (t : List Char) :
    csv_records_of_text (t ++ ['\n']) = csv_records_of_text t ++ [[]] := by
  simp [csv_records_of_text, splitOnChar_append_sep]

theorem read_existing_keys_blank_suffix (recs : CsvFile) :
    read_existing_keys (some (recs ++ [[]])) = read_existing_keys (some recs) := by
  cases recs with
  | nil => simp [read_existing_keys]
  | cons header rest =>
      simp [read_existing_keys, List.filter_append]

end TextLayerLemmas

section WalkLemmas

theorem get_nested_parts_single (p : PyDict) (k : String) :
    get_nested_parts .vnull (.vobj p) [k] = pyGet p k := by
  cases h : alookup k p with
  | none => simp [get_nested_parts, pyGet, h]
  | some v => simp [get_nested_parts, pyGet, h]

theorem get_nested_parts_walk (parts : List String) :
    ∀ d default : PyVal,
      (∃ v, WalksTo d parts v ∧ get_nested_parts default d parts = v) ∨
      ((∀ v, ¬ WalksTo d parts v) ∧ get_nested_parts default d parts = default) := by
  induction parts with
  | nil =>
      intro d default
      exact Or.inl ⟨d, WalksTo.nil d, by cases d <;> rfl⟩
  | cons k rest ih =>
      intro d default
      cases d with
      | vnull =>
          refine Or.inr ⟨?_, rfl⟩
          intro v hv
          cases hv
      | vstr s =>
          refine Or.inr ⟨?_, rfl⟩
          intro v hv
          cases hv
      | vint n =>
          refine Or.inr ⟨?_, rfl⟩
          intro v hv
          cases hv
      | vobj fields =>
          cases hlook : alookup k fields with
          | some v =>
              rcases ih v default with ⟨w, hw, heq⟩ | ⟨hnone, heq⟩
              · exact Or.inl ⟨w, WalksTo.step hlook hw,
                  by simpa [get_nested_parts, hlook] using heq⟩
              · refine Or.inr ⟨?_, by simpa [get_nested_parts, hlook] using heq⟩
                intro w hw
                cases hw with
                | step hlook₂ hrest =>
                    rw [hlook] at hlook₂
                    cases hlook₂
                    exact hnone w hrest
          | none =>
              refine Or.inr ⟨?_, by simp [get_nested_parts, hlook]⟩
              intro w hw
              cases hw with
              | step hlook₂ _ =>
                  rw [hlook] at hlook₂
                  cases hlook₂

end WalkLemmas

section ShapeLemmas

theorem write_rows_ok_cases (fs : FSState) (rows : List PyDict) (fs₂ : FSState)
    (n : Nat) (hw : write_rows fs rows = .ok (fs₂, n)) :
    (fs₂ = fs ∧ n = 0) ∨
    (fs₂.dirExists = fs.dirExists ∧
     fs₂.file = some (appendContent fs.file
        ((dedupNew (read_existing_keys fs.file) rows).map serializeRow)) ∧
     n = (dedupNew (read_existing_keys fs.file) rows).length) := by
  by_cases h2 : dedupNew (read_existing_keys fs.file) rows = []
  · rw [write_rows_none_new fs rows h2] at hw
    simp only [Except.ok.injEq, Prod.mk.injEq] at hw
    exact Or.inl ⟨hw.1.symm, hw.2.symm⟩
  · cases hd : fs.dirExists with
    | true =>
        rw [write_rows_appends fs rows hd h2] at hw
        simp only [Except.ok.injEq, Prod.mk.injEq] at hw
        refine Or.inr ⟨?_, ?_, hw.2.symm⟩
        · rw [← hw.1]
        · rw [← hw.1]
    | false =>
        rw [write_rows_dir_missing fs rows hd h2] at hw
        cases hw

theorem serializeRow_ne_fieldnames (r : PyDict)
    (hr : ∃ s, pyGet r "snapshot_ts" = .vstr s ∧ s ≠ "snapshot_ts") :
    serializeRow r ≠ fieldnames := by
  obtain ⟨s, hs, hne⟩ := hr
  intro heq
  have hhead : csvField (pyGet r "snapshot_ts") = "snapshot_ts" := by
    have h₂ := congrArg List.head? heq
    simpa [serializeRow, fieldnames] using h₂
  rw [hs] at hhead
  exact hne hhead

theorem countP_eq_key_le_one (l : List PyDict) (k : PyVal × PyVal)
    (h : (l.map rowKey).Nodup) :
    l.countP (fun r => decide (rowKey r = k)) ≤ 1 := by
  induction l with
  | nil => simp
  | cons r rs ih =>
      simp only [List.map_cons, List.nodup_cons] at h
      by_cases hr : rowKey r = k
      · rw [List.countP_cons_of_pos _ _ (by simp [hr])]
        have hzero : rs.countP (fun r => decide (rowKey r = k)) = 0 := by
          refine List.countP_eq_zero.mpr ?_
          intro x hx hxk
          simp only [decide_eq_true_eq] at hxk
          exact h.1 (by rw [hr, ← hxk]; exact List.mem_map_of_mem rowKey hx)
        omega
      · rw [List.countP_cons_of_neg _ _ (by simp [hr])]
        exact ih h.2

theorem run_appends_wf (batches : List (List PyDict)) :
    ∀ fs : FSState, fs.dirExists = true → wf_partition fs.file →
      (∀ rows ∈ batches, ∀ r ∈ rows,
          ∃ s, pyGet r "snapshot_ts" = .vstr s ∧ s ≠ "snapshot_ts") →
      ∃ fs₁, run_appends fs batches = .ok fs₁ ∧ fs₁.dirExists = true ∧
        wf_partition fs₁.file := by
  induction batches with
  | nil =>
      intro fs hd hwf _
      exact ⟨fs, rfl, hd, hwf⟩
  | cons rows rest ih =>
      intro fs hd hwf hgood
      by_cases hded : dedupNew (read_existing_keys fs.file) rows = []
      · have hw := write_rows_none_new fs rows hded
        have hstep : run_appends fs (rows :: rest) = run_appends fs rest := by
          simp [run_appends, hw]
        rw [hstep]
        exact ih fs hd hwf fun rows₂ h₂ => hgood rows₂ (List.mem_cons_of_mem _ h₂)
      · have hw := write_rows_appends fs rows hd hded
        have hstep : run_appends fs (rows :: rest) =
            run_appends ⟨true, some (appendContent fs.file
              ((dedupNew (read_existing_keys fs.file) rows).map serializeRow))⟩
              rest := by
          simp [run_appends, hw]
        rw [hstep]
        refine ih _ rfl ?_ fun rows₂ h₂ => hgood rows₂ (List.mem_cons_of_mem _ h₂)
        have happgood : ∀ r ∈ dedupNew (read_existing_keys fs.file) rows,
            ∃ s, pyGet r "snapshot_ts" = .vstr s ∧ s ≠ "snapshot_ts" := by
          intro r hr
          exact hgood rows (List.mem_cons_self _ _) r
            ((dedupNew_sublist _ rows).subset hr)
        rcases hwf with hnone | ⟨rs, hfile, hrs⟩
        · right
          refine ⟨dedupNew (read_existing_keys fs.file) rows, ?_, happgood⟩
          simp [appendContent, hnone]
        · right
          refine ⟨rs ++ dedupNew (read_existing_keys fs.file) rows, ?_, ?_⟩
          · simp [appendContent, hfile, List.map_append]
          · intro r hr
            rcases List.mem_append.mp hr with h₁ | h₁
            · exact hrs r h₁
            · exact happgood r h₁

theorem wf_partition_header_count (file : Option CsvFile) (h : wf_partition file) :
    file = none ∨
      ∃ l, file = some l ∧ l.headI = fieldnames ∧ l.count fieldnames = 1 := by
  rcases h with hnone | ⟨rs, hfile, hrs⟩
  · exact Or.inl hnone
  · right
    refine ⟨fieldnames :: rs.map serializeRow, hfile, rfl, ?_⟩
    rw [List.count_cons_self]
    have hzero : (rs.map serializeRow).count fieldnames = 0 := by
      refine List.count_eq_zero.mpr ?_
      intro hmem
      obtain ⟨r, hr, hser⟩ := List.mem_map.mp hmem
      exact serializeRow_ne_fieldnames r (hrs r hr) hser
    omega

end ShapeLemmas

/-- C4: for every record of the nested-value sum type and every dot-separated
path string, `_get_nested` either follows a complete walk through nested
dicts and returns the final value unconverted, or — the moment any
intermediate value is not a dict or a segment key is absent, so that no
complete walk exists — returns the supplied default (the missing-value
marker at both call sites); being a total function, it never raises. -/
theorem C4_get_nested_total_walk (d : PyVal) (path : String) (default : PyVal) :
    (∃ v, WalksTo d (pySplit '.' path) v ∧ get_nested d path default = v) ∨
    ((∀ v, ¬ WalksTo d (pySplit '.' path) v) ∧
      get_nested d path default = default) :=
  get_nested_parts_walk (pySplit '.' path) d default

/-- Witness for C4 at the nested `liquidity.usd` path of the spec's sample
record. -/
theorem C4_get_nested_total_walk_witness :
    (∃ v, WalksTo (.vobj sampleRecord) (pySplit '.' "liquidity.usd") v ∧
        get_nested (.vobj sampleRecord) "liquidity.usd" .vnull = v) ∨
    ((∀ v, ¬ WalksTo (.vobj sampleRecord) (pySplit '.' "liquidity.usd") v) ∧
        get_nested (.vobj sampleRecord) "liquidity.usd" .vnull = .vnull) :=
  C4_get_nested_total_walk (.vobj sampleRecord) "liquidity.usd" .vnull

/-- C9: calling `write_rows` with an empty candidate list returns 0 and
leaves the filesystem state untouched: the function returns before reading
the partition file or opening anything, so an absent file is not created
and existing content is unchanged. -/
theorem C9_empty_batch_no_effect (fs : FSState) :
    write_rows fs [] = .ok (fs, 0) :=
  write_rows_empty_batch fs

/-- Witness for C9 on a state with a missing directory and an existing
file. -/
theorem C9_empty_batch_no_effect_witness :
    write_rows ⟨false, some [fieldnames]⟩ [] = .ok (⟨false, some [fieldnames]⟩, 0) :=
  C9_empty_batch_no_effect ⟨false, some [fieldnames]⟩

/-- C6: every fetch failure (HTTP error, transport error, or unexpected
error) is caught at the orchestrator boundary: `do_snapshot` returns a
written-count of 0 without raising and without touching the filesystem; a
successful fetch runs normalize + ensure_dir + append and returns exactly
what the append step reports, and never raises. -/
theorem C6_orchestrator_error_boundary :
    (∀ (e : FetchErr) (fs : FSState) (ts : String),
        do_snapshot (.error e) fs ts = .ok (fs, 0)) ∧
    (∀ (pairs : List PyDict) (fs : FSState) (ts : String),
        do_snapshot (.ok pairs) fs ts =
          write_rows (ensure_dir fs) (normalize_records pairs ts) ∧
        ∃ fs₂ n, do_snapshot (.ok pairs) fs ts = .ok (fs₂, n)) := by
  refine ⟨fun e fs ts => rfl, fun pairs fs ts => ⟨rfl, ?_⟩⟩
  obtain ⟨fs₂, n, hw, _⟩ :=
    write_rows_ok_of_dir (ensure_dir fs) (normalize_records pairs ts) rfl
  exact ⟨fs₂, n, hw⟩

/-- Witness for C6: a transport failure against an untouched state. -/
theorem C6_orchestrator_error_boundary_witness :
    do_snapshot (.error .requestError) ⟨false, none⟩ "t" = .ok (⟨false, none⟩, 0) :=
  C6_orchestrator_error_boundary.1 .requestError ⟨false, none⟩ "t"

/-- C8 counterexample: `write_rows` itself does not create the parent
directory — on a state where the directory is missing, appending one
normalized row raises instead of writing. -/
theorem C8_missing_dir_append_raises :
    write_rows ⟨false, none⟩ (normalize_records [[]] "t") = .error () := rfl

/-- C8 (amended): the parent-directory guarantee lives in the orchestrator,
not in the append: `do_snapshot` calls `ensure_dir` before appending, so
the append inside a snapshot cannot fail for a missing parent directory
(and an append on a state whose directory exists always succeeds), but
`write_rows` called directly requires the caller to have created it. -/
theorem C8_dir_ensured_by_orchestrator :
    (∀ (fs : FSState) (rows : List PyDict), fs.dirExists = true →
        ∃ fs₂ n, write_rows fs rows = .ok (fs₂, n)) ∧
    (∀ fs : FSState, (ensure_dir fs).dirExists = true) ∧
    (∀ (fetched : Except FetchErr (List PyDict)) (fs : FSState) (ts : String),
        ∃ fs₂ n, do_snapshot fetched fs ts = .ok (fs₂, n)) := by
  refine ⟨?_, fun fs => rfl, ?_⟩
  · intro fs rows hd
    obtain ⟨fs₂, n, hw, _⟩ := write_rows_ok_of_dir fs rows hd
    exact ⟨fs₂, n, hw⟩
  · intro fetched fs ts
    cases fetched with
    | error e => exact ⟨fs, 0, rfl⟩
    | ok pairs =>
        obtain ⟨fs₂, n, hw, _⟩ :=
          write_rows_ok_of_dir (ensure_dir fs) (normalize_records pairs ts) rfl
        exact ⟨fs₂, n, hw⟩

/-- Witness for C8: with the directory present, the same append that the
counterexample shows raising goes through. -/
theorem C8_dir_ensured_by_orchestrator_witness :
    ∃ fs₂ n, write_rows ⟨true, none⟩ (normalize_records [[]] "t") = .ok (fs₂, n) :=
  C8_dir_ensured_by_orchestrator.1 ⟨true, none⟩ (normalize_records [[]] "t") rfl

/-- C10: a candidate row whose `pairAddress` is the missing marker has the
dedup key `(missing, snapshot_ts)`, shared with every other such row of the
same timestamp; consequently among the rows the dedup loop of `write_rows`
lets through (`dedupNew`, against any set of existing keys) at most one row
per timestamp carries that key, however the other fields differ. -/
theorem C10_missing_pairAddress_single_survivor
    (existing : List (PyVal × PyVal)) (rows : List PyDict) (ts : String) :
    (∀ r ∈ rows, pyGet r "pairAddress" = .vnull →
        rowKey r = (.vnull, pyGet r "snapshot_ts")) ∧
    (dedupNew existing rows).countP
        (fun r => decide (rowKey r = (.vnull, .vstr ts))) ≤ 1 := by
  constructor
  · intro r _ h
    simp [rowKey, h]
  · exact countP_eq_key_le_one _ _ (dedupNew_keys_nodup_disjoint rows existing).1

/-- Witness for C10: two distinct address-less rows of one timestamp. -/
theorem C10_missing_pairAddress_single_survivor_witness :
    (dedupNew [] [normalize_record [("chainId", .vstr "solana")] "t",
                  normalize_record [("dexId", .vstr "x")] "t"]).countP
        (fun r => decide (rowKey r = (.vnull, .vstr "t"))) ≤ 1 :=
  (C10_missing_pairAddress_single_survivor []
    [normalize_record [("chainId", .vstr "solana")] "t",
     normalize_record [("dexId", .vstr "x")] "t"] "t").2

/-- C7: `read_existing_keys` yields the empty key set for an absent file
and for a header-only file; for a file holding the written header plus
serialized rows it yields exactly the dedup key of each row present (as
the csv layer stores it: the `pairAddress` and `snapshot_ts` cells, read
back as strings); and at the text level the presence or absence of the
trailing newline after the last row changes nothing — no failure, no lost
key (the reader is total and the extra blank line is skipped). -/
theorem C7_read_existing_keys_robust :
    read_existing_keys none = [] ∧
    (∀ header : List String, read_existing_keys (some [header]) = []) ∧
    (∀ rs : List PyDict,
        read_existing_keys (some (fieldnames :: rs.map serializeRow)) =
          rs.map (fun r => ((.vstr (csvField (pyGet r "pairAddress")) : PyVal),
                            (.vstr (csvField (pyGet r "snapshot_ts")) : PyVal)))) ∧
    (∀ t : List Char,
        read_existing_keys_text (some (t ++ ['\n'])) =
          read_existing_keys_text (some t)) := by
  refine ⟨rfl, fun header => rfl, read_keys_of_written, fun t => ?_⟩
  show read_existing_keys (some (csv_records_of_text (t ++ ['\n']))) =
      read_existing_keys (some (csv_records_of_text t))
  rw [csv_records_of_text_append_newline]
  exact read_existing_keys_blank_suffix _

/-- Witness for C7: the header-only file. -/
theorem C7_read_existing_keys_robust_witness :
    read_existing_keys (some [fieldnames]) = [] :=
  C7_read_existing_keys_robust.2.1 fieldnames

/-- C3: `normalize_records` produces one output row per input record, in
input order (it is the elementwise map of `normalize_record`); every output
row has exactly the fixed 30-field set in the canonical order; and every
field whose source path is absent from the raw record (the extraction
degrades to the missing marker) is the missing marker in the row. All the
functions involved are total, so no input raises. -/
theorem C3_normalize_fixed_schema (pairs : List PyDict) (ts : String) :
    normalize_records pairs ts = pairs.map (fun p => normalize_record p ts) ∧
    (normalize_records pairs ts).length = pairs.length ∧
    (∀ row ∈ normalize_records pairs ts, row.map Prod.fst = fieldnames) ∧
    (∀ p : PyDict, ∀ fp ∈ fieldSources,
        get_nested (.vobj p) fp.2 = .vnull →
        pyGet (normalize_record p ts) fp.1 = .vnull) := by
  refine ⟨normalize_records_eq_map pairs ts, ?_, ?_, ?_⟩
  · rw [normalize_records_eq_map]
    simp
  · intro row hrow
    rw [normalize_records_eq_map] at hrow
    obtain ⟨p, _, hp⟩ := List.mem_map.mp hrow
    cases hp
    rfl
  · intro p fp hfp hnull
    fin_cases hfp <;>
      first
        | exact hnull
        | exact ((get_nested_parts_single p _).symm.trans hnull)

/-- Witness for C3 on the spec's sample record and timestamp. -/
theorem C3_normalize_fixed_schema_witness :
    (normalize_records [sampleRecord] "2024-01-01T00:00:00+00:00").length = 1 ∧
    pyGet (normalize_record sampleRecord "2024-01-01T00:00:00+00:00")
        "liquidity_usd" = .vint 5000 :=
  ⟨(C3_normalize_fixed_schema [sampleRecord] "2024-01-01T00:00:00+00:00").2.1, rfl⟩

/-- C1 counterexample: the claim fails for a record without `pairAddress`.
The written key cell is the empty string, but the second call compares the
raw key `(None, ts)` against the re-read string key `("", ts)`: they
differ, so the second append to the same partition writes the row again —
it returns 1, not 0, and the file ends with two copies of the same-keyed
row. -/
theorem C1_idempotent_append_cex :
    write_rows ⟨true, none⟩ (normalize_records [[]] "t") =
      .ok (⟨true, some [fieldnames, "t" :: List.replicate 29 ""]⟩, 1) ∧
    write_rows ⟨true, some [fieldnames, "t" :: List.replicate 29 ""]⟩
        (normalize_records [[]] "t") =
      .ok (⟨true, some [fieldnames, "t" :: List.replicate 29 "",
                        "t" :: List.replicate 29 ""]⟩, 1) := ⟨rfl, rfl⟩

/-- C1 (amended): idempotent append holds for every record list whose
records carry a string `pairAddress` (all real API records do; the
timestamp is a string by construction, so such keys survive the csv
round trip): normalizing and appending twice to an initially absent
partition writes each distinct key once, the second call writes 0 rows and
leaves the file unchanged, and the file holds exactly one row per distinct
key of the batch. -/
theorem C1_idempotent_append_for_string_keys (recs : List PyDict) (ts : String)
    (h : ∀ p ∈ recs, ∃ s, alookup "pairAddress" p = some (.vstr s)) :
    ∃ fs₁ : FSState,
      write_rows ⟨true, none⟩ (normalize_records recs ts) =
        .ok (fs₁, (dedupNew [] (normalize_records recs ts)).length) ∧
      write_rows fs₁ (normalize_records recs ts) = .ok (fs₁, 0) ∧
      fs₁.file = (if dedupNew [] (normalize_records recs ts) = [] then none
                  else some (fieldnames ::
                    (dedupNew [] (normalize_records recs ts)).map serializeRow)) ∧
      ((dedupNew [] (normalize_records recs ts)).map rowKey).Nodup ∧
      (∀ r ∈ normalize_records recs ts,
          rowKey r ∈ (dedupNew [] (normalize_records recs ts)).map rowKey) := by
  set rows := normalize_records recs ts with hrdef
  have hkeys : ∀ r ∈ rows, ∃ s, rowKey r = (.vstr s, .vstr ts) := by
    intro r hr
    rw [hrdef, normalize_records_eq_map] at hr
    obtain ⟨p, hp, hpr⟩ := List.mem_map.mp hr
    cases hpr
    obtain ⟨s, hs⟩ := h p hp
    refine ⟨s, ?_⟩
    rw [rowKey_normalize_record,
      show pyGet p "pairAddress" = .vstr s from by simp [pyGet, hs]]
  have hcompl : ∀ r ∈ rows, rowKey r ∈ (dedupNew [] rows).map rowKey := by
    intro r hr
    rcases rowKey_mem_of_mem rows [] r hr with h0 | h1
    · exact absurd h0 (List.not_mem_nil _)
    · exact h1
  have hnodup := (dedupNew_keys_nodup_disjoint rows []).1
  by_cases hded : dedupNew [] rows = []
  · have hrows : rows = [] := (dedupNew_nil_iff rows).mp hded
    refine ⟨⟨true, none⟩, ?_, ?_, ?_, ?_, ?_⟩
    · rw [hrows]
      exact write_rows_empty_batch ⟨true, none⟩
    · rw [hrows]
      exact write_rows_empty_batch ⟨true, none⟩
    · rw [if_pos hded]
    · rw [hded]
      simp
    · rw [hrows]
      intro r hr
      exact absurd hr (List.not_mem_nil r)
  · have hw1 : write_rows ⟨true, none⟩ rows =
        .ok (⟨true, some (fieldnames :: (dedupNew [] rows).map serializeRow)⟩,
             (dedupNew [] rows).length) :=
      write_rows_appends ⟨true, none⟩ rows rfl hded
    have hread1 :
        read_existing_keys (some (fieldnames :: (dedupNew [] rows).map serializeRow)) =
          (dedupNew [] rows).map rowKey := by
      rw [read_keys_of_written]
      refine List.map_congr_left ?_
      intro r hr
      have hrrows : r ∈ rows := (dedupNew_sublist [] rows).subset hr
      obtain ⟨s, hs⟩ := hkeys r hrrows
      have hpa : pyGet r "pairAddress" = .vstr s := congrArg Prod.fst hs
      have hts : pyGet r "snapshot_ts" = .vstr ts := congrArg Prod.snd hs
      rw [hpa, hts, hs]
      rfl
    have hall : ∀ r ∈ rows,
        rowKey r ∈ read_existing_keys
          (some (fieldnames :: (dedupNew [] rows).map serializeRow)) := by
      intro r hr
      rw [hread1]
      exact hcompl r hr
    have hw2 : write_rows
        ⟨true, some (fieldnames :: (dedupNew [] rows).map serializeRow)⟩ rows =
        .ok (⟨true, some (fieldnames :: (dedupNew [] rows).map serializeRow)⟩, 0) :=
      write_rows_none_new _ rows (dedupNew_eq_nil_of_all_mem rows _ hall)
    refine ⟨⟨true, some (fieldnames :: (dedupNew [] rows).map serializeRow)⟩,
      hw1, hw2, ?_, hnodup, hcompl⟩
    rw [if_neg hded]

/-- Witness for C1 on one record carrying a string pair address. -/
theorem C1_idempotent_append_witness :
    ∃ fs₁ : FSState,
      write_rows ⟨true, none⟩
          (normalize_records [[("pairAddress", PyVal.vstr "P1")]] "t") =
        .ok (fs₁, 1) ∧
      write_rows fs₁ (normalize_records [[("pairAddress", PyVal.vstr "P1")]] "t") =
        .ok (fs₁, 0) := by
  obtain ⟨fs₁, h1, h2, _⟩ :=
    C1_idempotent_append_for_string_keys [[("pairAddress", PyVal.vstr "P1")]] "t"
      (by
        intro p hp
        rw [List.mem_singleton] at hp
        subst hp
        exact ⟨"P1", rfl⟩)
  refine ⟨fs₁, ?_, h2⟩
  rw [show (dedupNew []
      (normalize_records [[("pairAddress", PyVal.vstr "P1")]] "t")).length = 1
    from rfl] at h1
  exact h1

/-- C2: against any partition state, `write_rows` appends exactly the
candidates the spec designates — those whose dedup key is neither already
on disk (per `read_existing_keys`) nor carried by an earlier candidate of
the batch, the first occurrence surviving — in their relative order
(a sublist of the candidates), writing the header first iff the file was
absent, and returns the number actually appended (0 when none are new, the
file untouched). In particular, batch A with keys `k1,k2` followed by
batch B with keys `k2,k3` on the same initially-empty partition yields
exactly the three rows `k1, k2, k3` in arrival order, `k2` once, with
counts 2 and 1. -/
theorem C2_append_filters_new_keys :
    (∀ (fs : FSState) (rows : List PyDict), fs.dirExists = true →
        List.Sublist (spec_filtered (read_existing_keys fs.file) [] rows) rows ∧
        write_rows fs rows =
          .ok (⟨true,
                if spec_filtered (read_existing_keys fs.file) [] rows = []
                then fs.file
                else some (appendContent fs.file
                  ((spec_filtered (read_existing_keys fs.file) [] rows).map
                    serializeRow))⟩,
               (spec_filtered (read_existing_keys fs.file) [] rows).length)) ∧
    (write_rows ⟨true, none⟩ [rowK "k1" "t", rowK "k2" "t"] =
        .ok (⟨true, some [fieldnames, serializeRow (rowK "k1" "t"),
                          serializeRow (rowK "k2" "t")]⟩, 2) ∧
     write_rows ⟨true, some [fieldnames, serializeRow (rowK "k1" "t"),
                             serializeRow (rowK "k2" "t")]⟩
         [rowK "k2" "t", rowK "k3" "t"] =
        .ok (⟨true, some [fieldnames, serializeRow (rowK "k1" "t"),
                          serializeRow (rowK "k2" "t"),
                          serializeRow (rowK "k3" "t")]⟩, 1)) := by
  refine ⟨?_, rfl, rfl⟩
  intro fs rows hd
  have hspec : dedupNew (read_existing_keys fs.file) rows =
      spec_filtered (read_existing_keys fs.file) [] rows :=
    dedupNew_eq_spec_filtered rows _ _ [] (by intro k; simp)
  have hfs : fs = ⟨true, fs.file⟩ := by
    obtain ⟨d, f⟩ := fs
    simp only [FSState.mk.injEq]
    exact ⟨hd, trivial⟩
  refine ⟨?_, ?_⟩
  · rw [← hspec]
    exact dedupNew_sublist _ rows
  · rw [← hspec]
    by_cases hded : dedupNew (read_existing_keys fs.file) rows = []
    · rw [if_pos hded, hded]
      rw [write_rows_none_new fs rows hded]
      rw [hfs]
      rfl
    · rw [if_neg hded]
      exact write_rows_appends fs rows hd hded

/-- Witness for C2: the first batch of the scenario against the empty
partition. -/
theorem C2_append_filters_new_keys_witness :
    List.Sublist
      (spec_filtered (read_existing_keys ((⟨true, none⟩ : FSState)).file) []
        [rowK "k1" "t"])
      [rowK "k1" "t"] :=
  ((C2_append_filters_new_keys).1 ⟨true, none⟩ [rowK "k1" "t"] rfl).1

/-- C5: starting from an absent partition file, any finite sequence of
append calls maintains the header-once invariant — the file is absent or
holds the header record exactly once, at the top, followed only by
serialized data rows (the timestamp hypothesis rules out a data row that
spells the literal header; every real ISO timestamp satisfies it) — and
each single call is append-only: existing content stays a prefix, a file is
never rewritten, truncated or deleted, and a created file starts with the
header. -/
theorem C5_header_once_append_only (batches : List (List PyDict))
    (hgood : ∀ rows ∈ batches, ∀ r ∈ rows,
        ∃ s, pyGet r "snapshot_ts" = .vstr s ∧ s ≠ "snapshot_ts") :
    (∃ fs₁, run_appends ⟨true, none⟩ batches = .ok fs₁ ∧
        (fs₁.file = none ∨
          ∃ l, fs₁.file = some l ∧ l.headI = fieldnames ∧
            l.count fieldnames = 1)) ∧
    (∀ (fs fs₂ : FSState) (rows : List PyDict) (n : Nat) (recs : CsvFile),
        write_rows fs rows = .ok (fs₂, n) → fs.file = some recs →
        ∃ newRecs, fs₂.file = some (recs ++ newRecs)) ∧
    (∀ (fs fs₂ : FSState) (rows : List PyDict) (n : Nat),
        write_rows fs rows = .ok (fs₂, n) → fs.file = none →
        fs₂.file = none ∨ ∃ newRecs, fs₂.file = some (fieldnames :: newRecs)) := by
  refine ⟨?_, ?_, ?_⟩
  · obtain ⟨fs₁, hrun, _, hwf⟩ :=
      run_appends_wf batches ⟨true, none⟩ rfl (Or.inl rfl) hgood
    exact ⟨fs₁, hrun, wf_partition_header_count fs₁.file hwf⟩
  · intro fs fs₂ rows n recs hw hfile
    rcases write_rows_ok_cases fs rows fs₂ n hw with ⟨hfs, _⟩ | ⟨_, hf, _⟩
    · exact ⟨[], by rw [hfs, hfile, List.append_nil]⟩
    · rw [hfile] at hf
      exact ⟨_, hf⟩
  · intro fs fs₂ rows n hw hfile
    rcases write_rows_ok_cases fs rows fs₂ n hw with ⟨hfs, _⟩ | ⟨_, hf, _⟩
    · left
      rw [hfs, hfile]
    · right
      rw [hfile] at hf
      exact ⟨_, hf⟩

/-- Witness for C5: one batch of one row with timestamp `"t"`. -/
theorem C5_header_once_append_only_witness :
    ∃ fs₁, run_appends ⟨true, none⟩ [[rowK "k1" "t"]] = .ok fs₁ ∧
      (fs₁.file = none ∨
        ∃ l, fs₁.file = some l ∧ l.headI = fieldnames ∧
          l.count fieldnames = 1) := by
  have hgood : ∀ rows ∈ [[rowK "k1" "t"]], ∀ r ∈ rows,
      ∃ s, pyGet r "snapshot_ts" = .vstr s ∧ s ≠ "snapshot_ts" := by
    intro rows hrows r hr
    rw [List.mem_singleton] at hrows
    subst hrows
    rw [List.mem_singleton] at hr
    subst hr
    exact ⟨"t", rfl, by decide⟩
  exact (C5_header_once_append_only [[rowK "k1" "t"]] hgood).1

